import Mathlib

/-!
Verification of the compaction descriptor of the RocksDB compaction core
(`db/compaction.h`).  The data model (file descriptors, level snapshots,
change-log edits, the compaction descriptor itself) and its operations are
shallowly embedded as executable Lean definitions.  Internal keys and user
keys are modelled as natural numbers ordered by `≤`; machine integers that
cannot overflow in the modelled scenarios (file sizes, byte ceilings,
counters) are modelled as `Nat`.

The bodies of most `Compaction` member functions live in `compaction.cc`,
which is not part of the given sources (only the header with their
declarations is).  Those operations are therefore modelled from the
specification's description, as marked in their doc comments.  Member
functions whose bodies are inline in the header (`num_input_files`,
`input_levels`, `IsDeletionCompaction`, the accessors) are translated
directly from the header.
-/

namespace RocksDB

/-- A file descriptor (`FileMetaData`): identity (monotonic file number),
byte size, smallest/largest key of the table, and the mutable exclusion
flag `being_compacted`. -/
structure FileMetaData where
  number : Nat
  file_size : Nat
  smallest : Nat
  largest : Nat
  being_compacted : Bool
deriving Repr, DecidableEq

/-- Compaction style of the column family (leveled vs universal
(whole-set-merge) vs FIFO). -/
inductive CompactionStyle where
  | level : CompactionStyle
  | universal : CompactionStyle
  | fifo : CompactionStyle
deriving Repr, DecidableEq

/-- A level snapshot (`Version`): the ordered per-level file lists, the
reference count pinning the snapshot, and the per-level round-robin
selection cursor `next_file_to_compact_by_size_`. -/
@[ext]
structure Version where
  levels : List (List FileMetaData)
  refs : Nat
  next_file_to_compact_by_size : List Nat
deriving Repr, DecidableEq

/-- The change log (`VersionEdit`): an append-only list of "remove file"
records `(level, file number)` and "add file" records. -/
structure VersionEdit where
  deleted_files : List (Nat × Nat)
  new_files : List (Nat × FileMetaData)
deriving Repr, DecidableEq

/-- Result status of a compaction run (`Status`): only `ok` is relevant to
the descriptor's release path. -/
structure Status where
  ok : Bool
deriving Repr, DecidableEq

/-- The compaction descriptor (`Compaction`): the immutable plan fields
fixed at construction and the mutable progress state used during
execution (`grandparent_index_`, `seen_key_`, `overlapped_bytes_`,
`level_ptrs_`). -/
structure Compaction where
  base_level : Nat
  output_level : Nat
  input_levels : Nat
  max_output_file_size : Nat
  max_grandparent_overlap_bytes : Nat
  inputs : List (List FileMetaData)
  grandparents : List FileMetaData
  grandparent_index : Nat
  seen_key : Bool
  overlapped_bytes : Nat
  deletion_compaction : Bool
  is_manual_compaction : Bool
  compaction_style : CompactionStyle
  level_ptrs : List Nat
deriving Repr, DecidableEq

/-- Sum of the byte sizes of a list of files (`TotalFileSize`). -/
def totalFileSize (fs : List FileMetaData) : Nat :=
  (fs.map (fun f => f.file_size)).sum

/-- A file's key range overlaps the key range `[lo, hi]`. -/
def overlapsRange (lo hi : Nat) (g : FileMetaData) : Bool :=
  lo ≤ g.largest && g.smallest ≤ hi

/-- Two files' key ranges overlap. -/
def rangesOverlap (f g : FileMetaData) : Bool :=
  overlapsRange f.smallest f.largest g

/-- The files of a list whose key range overlaps `[lo, hi]`
(`Version::GetOverlappingInputs`). -/
def filesOverlappingRange (files : List FileMetaData) (lo hi : Nat) :
    List FileMetaData :=
  files.filter (overlapsRange lo hi)

/-- Smallest key covered by a list of files (0 for the empty list). -/
def rangeLo : List FileMetaData → Nat
  | [] => 0
  | f :: rest => rest.foldl (fun m g => Nat.min m g.smallest) f.smallest

/-- Largest key covered by a list of files (0 for the empty list). -/
def rangeHi : List FileMetaData → Nat
  | [] => 0
  | f :: rest => rest.foldl (fun m g => Nat.max m g.largest) f.largest

/-- The file list of level `ℓ` in a snapshot (empty beyond the last level). -/
def levelFiles (v : Version) (ℓ : Nat) : List FileMetaData :=
  (v.levels.get? ℓ).getD []

/-- All files of a snapshot, across all levels. -/
def allFiles (v : Version) : List FileMetaData :=
  v.levels.flatten

/-- The file lists of all levels strictly deeper than `out`. -/
def deeperLevels (v : Version) (out : Nat) : List (List FileMetaData) :=
  v.levels.drop (out + 1)

/-- Set (`mark = true`) or clear (`mark = false`) the exclusion flag of a
single file if its number is among `ids`. -/
def markOne (mark : Bool) (ids : List Nat) (f : FileMetaData) : FileMetaData :=
  if f.number ∈ ids then { f with being_compacted := mark } else f

/-- Set or clear the exclusion flag of every file of the snapshot whose
number is among `ids`. -/
def markFiles (mark : Bool) (ids : List Nat) (v : Version) : Version :=
  { v with levels := v.levels.map (fun fs => fs.map (markOne mark ids)) }

/-- File numbers of all input files of a descriptor, across all input
levels. -/
def inputNumbers (c : Compaction) : List Nat :=
  c.inputs.flatten.map (fun f => f.number)

/-- Modelled from the spec (body in the missing `compaction.cc`):
`MarkFilesBeingCompacted(mark)` "toggles the exclusion flag on every file
across every input level". -/
def MarkFilesBeingCompacted (c : Compaction) (mark : Bool) (v : Version) :
    Version :=
  markFiles mark (inputNumbers c) v

/-- Modelled from the spec (body in the missing `compaction.cc`): the input
lists of a descriptor span levels `base .. output`; the base level
contributes the files chosen by the selecting strategy, each further level
contributes its files overlapping the chosen key range. -/
def mkInputs (v : Version) (base output : Nat)
    (baseFiles : List FileMetaData) : List (List FileMetaData) :=
  (List.range (output - base + 1)).map (fun which =>
    if which = 0 then baseFiles
    else filesOverlappingRange (levelFiles v (base + which))
      (rangeLo baseFiles) (rangeHi baseFiles))

/-- Modelled from the spec (the constructor's body and the pickers that
call it live in the missing `compaction.cc` / `compaction_picker.cc`):
construction of a compaction descriptor.  Preconditions (`none` on
violation): `base_level ≤ output_level`, the chosen base files come from
the snapshot's base level, and every file named in the inputs currently
has its exclusion flag clear.  Postconditions: `input_levels =
output_level - base_level + 1`, the grandparent list holds the
grandparent-level files overlapping the input range, all progress state
starts at zero, the exclusion flags of all input files are set, and the
snapshot reference is pinned. -/
def mkCompaction (v : Version) (base output : Nat)
    (baseFiles : List FileMetaData) (mofs mgob : Nat)
    (style : CompactionStyle) (is_manual deletion : Bool) :
    Option (Compaction × Version) :=
  if base ≤ output ∧ baseFiles ⊆ levelFiles v base ∧
      (∀ f ∈ allFiles v,
        f.number ∈ (mkInputs v base output baseFiles).flatten.map
          (fun f => f.number) → f.being_compacted = false) then
    some
      ({ base_level := base
         output_level := output
         input_levels := output - base + 1
         max_output_file_size := mofs
         max_grandparent_overlap_bytes := mgob
         inputs := mkInputs v base output baseFiles
         grandparents := filesOverlappingRange (levelFiles v (output + 1))
           (rangeLo baseFiles) (rangeHi baseFiles)
         grandparent_index := 0
         seen_key := false
         overlapped_bytes := 0
         deletion_compaction := deletion
         is_manual_compaction := is_manual
         compaction_style := style
         level_ptrs := List.replicate (deeperLevels v output).length 0 },
       { markFiles true ((mkInputs v base output baseFiles).flatten.map
           (fun f => f.number)) v with refs := v.refs + 1 })
  else none

/-- Modelled from the spec (body in the missing `compaction.cc`):
`ResetNextCompactionIndex` resets the round-robin selection cursor of the
base level "so a failed compaction does not permanently skip candidate
files". -/
def ResetNextCompactionIndex (c : Compaction) (v : Version) : Version :=
  { v with next_file_to_compact_by_size :=
      v.next_file_to_compact_by_size.set c.base_level 0 }

/-- Modelled from the spec (body in the missing `compaction.cc` /
`compaction_picker.cc`): `ReleaseCompactionFiles(status)` clears the
exclusion flag on every input file, resets the selection cursor when the
status is a failure, and drops the pinned snapshot reference.  It appends
nothing to the change log, which is returned unchanged. -/
def ReleaseCompactionFiles (c : Compaction) (status : Status) (v : Version)
    (edit : VersionEdit) : Version × VersionEdit :=
  let v1 := MarkFilesBeingCompacted c false v
  let v2 := if status.ok then v1 else ResetNextCompactionIndex c v1
  ({ v2 with refs := v2.refs - 1 }, edit)

/-- One "remove file" record `(level, file number)` per input file, level
by level, starting at `base`. -/
def deletionRecords (base : Nat) : List (List FileMetaData) → List (Nat × Nat)
  | [] => []
  | fs :: rest =>
      fs.map (fun f => (base, f.number)) ++ deletionRecords (base + 1) rest

/-- Modelled from the spec (body in the missing `compaction.cc`):
`AddInputDeletions` "appends a remove-file edit for every input file"
(`edit->DeleteFile(base_level_ + which, number)` over all input levels)
and produces no output file. -/
def AddInputDeletions (c : Compaction) (edit : VersionEdit) : VersionEdit :=
  { edit with deleted_files :=
      edit.deleted_files ++ deletionRecords c.base_level c.inputs }

/-- From the header (inline body): `num_input_files(which)` returns the
number of input files at level `base_level() + which`, and 0 when
`which < 0` or `which ≥ input_levels()`. -/
def num_input_files (c : Compaction) (which : Int) : Nat :=
  if 0 ≤ which ∧ which < (c.input_levels : Int) then
    ((c.inputs.get? which.toNat).getD []).length
  else 0

/-- Modelled from the spec (body in the missing `compaction.cc`):
`OutputFilePreallocationSize` is `max_output_file_size` for a leveled
compaction and the sum of all input file sizes otherwise (universal /
whole-set-merge). -/
def OutputFilePreallocationSize (c : Compaction) : Nat :=
  if c.compaction_style = CompactionStyle.level then c.max_output_file_size
  else totalFileSize c.inputs.flatten

/-- Modelled from the spec (body in the missing `compaction.cc`):
`IsTrivialMove` is true iff the compaction is neither manual nor
deletion-only, the base level contributes exactly one input file, no
output-level file was pulled into the inputs (no overlap at the output
level), and the total grandparent overlap is at most the ceiling. -/
def IsTrivialMove (c : Compaction) : Bool :=
  !c.is_manual_compaction && !c.deletion_compaction &&
  num_input_files c 0 == 1 && num_input_files c 1 == 0 &&
  totalFileSize c.grandparents ≤ c.max_grandparent_overlap_bytes

/-- Cursor advance of `ShouldStopBefore`: walk the remaining grandparent
files; each time the key has passed into a new grandparent file (the
file's range begins at or before the key), add that file's size to the
overlap counter and advance past it.  Returns the number of files newly
entered and the new overlap counter. -/
def gpEnter (files : List FileMetaData) (ob key : Nat) : Nat × Nat :=
  match files with
  | [] => (0, ob)
  | f :: rest =>
      if f.smallest ≤ key then
        let r := gpEnter rest (ob + f.file_size) key
        (r.1 + 1, r.2)
      else (0, ob)

/-- Modelled from the spec (body in the missing `compaction.cc`):
`ShouldStopBefore(internal_key)` advances the grandparent cursor each
time the key passes into a new grandparent file, adding that file's size
to `overlapped_bytes`; it marks the key as seen and returns true —
resetting `overlapped_bytes` for the next output file — exactly when the
accumulated overlap exceeds the ceiling and at least one key has already
been written to the current output file (`seen_key` guards against a
zero-record file). -/
def ShouldStopBefore (c : Compaction) (key : Nat) : Bool × Compaction :=
  if c.seen_key = true ∧ c.max_grandparent_overlap_bytes <
      (gpEnter (c.grandparents.drop c.grandparent_index)
        c.overlapped_bytes key).2 then
    (true, { c with
      grandparent_index := c.grandparent_index +
        (gpEnter (c.grandparents.drop c.grandparent_index)
          c.overlapped_bytes key).1,
      seen_key := true, overlapped_bytes := 0 })
  else
    (false, { c with
      grandparent_index := c.grandparent_index +
        (gpEnter (c.grandparents.drop c.grandparent_index)
          c.overlapped_bytes key).1,
      seen_key := true,
      overlapped_bytes :=
        (gpEnter (c.grandparents.drop c.grandparent_index)
          c.overlapped_bytes key).2 })

/-- Semantic overlap counter: the bytes accumulated so far plus the sizes
of the not-yet-counted grandparent files whose ranges the output stream
has crossed into once it reaches `key` (their ranges begin at or before
the key). -/
def bytesCrossed (c : Compaction) (key : Nat) : Nat :=
  c.overlapped_bytes +
    totalFileSize ((c.grandparents.drop c.grandparent_index).filter
      (fun f => f.smallest ≤ key))

/-- Per-level cursor scan of `KeyNotExistsBeyondOutputLevel`: skip files
whose range ends before `ukey`; at the first file with `ukey ≤ largest`,
report whether `ukey` falls inside its range.  Returns the number of files
skipped and that report. -/
def knebolScan (files : List FileMetaData) (ukey : Nat) : Nat × Bool :=
  match files with
  | [] => (0, false)
  | f :: rest =>
      if ukey ≤ f.largest then (0, decide (f.smallest ≤ ukey))
      else
        let r := knebolScan rest ukey
        (r.1 + 1, r.2)

/-- Cursor-based scan over all levels beyond the output level: for each
level, resume from its cursor and scan; return false as soon as one level
may still hold the key (leaving the remaining cursors untouched, as the
code returns early), true otherwise.  Returns the updated cursors. -/
def knebol (levels : List (List FileMetaData)) (ptrs : List Nat)
    (ukey : Nat) : Bool × List Nat :=
  match levels, ptrs with
  | _, [] => (true, [])
  | [], _ => (true, ptrs)
  | fs :: restL, p :: restP =>
      let r := knebolScan (fs.drop p) ukey
      if r.2 then (false, (p + r.1) :: restP)
      else
        let q := knebol restL restP ukey
        (q.1, (p + r.1) :: q.2)

/-- Modelled from the spec (body in the missing `compaction.cc`):
`KeyNotExistsBeyondOutputLevel(user_key)` walks every level strictly
deeper than the output level, advancing that level's monotonic cursor in
`level_ptrs_` past files ending before the key, and returns false iff the
key falls within some deeper file's range. -/
def KeyNotExistsBeyondOutputLevel (c : Compaction) (v : Version)
    (ukey : Nat) : Bool × Compaction :=
  ((knebol (deeperLevels v c.output_level) c.level_ptrs ukey).1,
   { c with level_ptrs :=
       (knebol (deeperLevels v c.output_level) c.level_ptrs ukey).2 })

/-- Run `KeyNotExistsBeyondOutputLevel` over a sequence of user keys,
recording each answer and the descriptor state after each call. -/
def knebolRunC (v : Version) : Compaction → List Nat → List (Bool × Compaction)
  | _, [] => []
  | c, k :: ks =>
      KeyNotExistsBeyondOutputLevel c v k ::
        knebolRunC v (KeyNotExistsBeyondOutputLevel c v k).2 ks

/-- Brute-force reachability reference: does `ukey` fall within the range
of some file of some level of the given list? -/
def keyInAnyDeeperFile (levels : List (List FileMetaData)) (ukey : Nat) :
    Bool :=
  levels.any (fun fs =>
    fs.any (fun f => f.smallest ≤ ukey && ukey ≤ f.largest))

/-- Run the cursor-based scan over a sequence of keys, recording each
answer and the cursor vector left behind by each call. -/
def knebolRun (levels : List (List FileMetaData)) :
    List Nat → List Nat → List (Bool × List Nat)
  | _, [] => []
  | ptrs, k :: ks =>
      let r := knebol levels ptrs k
      (r.1, r.2) :: knebolRun levels r.2 ks

/-- A level's file list is well-formed: ranges are pairwise disjoint in
increasing key order, and each file's range is non-empty. -/
def LevelSorted (fs : List FileMetaData) : Prop :=
  List.Pairwise (fun f g => f.largest < g.smallest) fs ∧
  ∀ f ∈ fs, f.smallest ≤ f.largest

/-- Pointwise order on cursor vectors: the second never regressed below
the first. -/
def PtrsLe (a b : List Nat) : Prop := List.Forall₂ (· ≤ ·) a b

/-- Cursor invariant: every file a cursor has already passed ends strictly
before the next key `k` to be queried. -/
def PtrInv (levels : List (List FileMetaData)) (ptrs : List Nat)
    (k : Nat) : Prop :=
  List.Forall₂ (fun fs p => ∀ f ∈ fs.take p, f.largest < k) levels ptrs

/-- A state of the compaction system: the current snapshot and the live
(constructed, not yet released) descriptors. -/
structure SysState where
  version : Version
  live : List Compaction

/-- One step of the system: a strategy constructs a descriptor (which
requires every chosen file's exclusion flag to be clear), or a worker
releases a live descriptor. -/
inductive Step : SysState → SysState → Prop where
  | construct (s : SysState) (base output : Nat)
      (baseFiles : List FileMetaData) (mofs mgob : Nat)
      (style : CompactionStyle) (man del : Bool)
      (c : Compaction) (v' : Version)
      (h : mkCompaction s.version base output baseFiles mofs mgob style
        man del = some (c, v')) :
      Step s ⟨v', c :: s.live⟩
  | release (v : Version) (l₁ l₂ : List Compaction) (c : Compaction)
      (st : Status) (e : VersionEdit) :
      Step ⟨v, l₁ ++ c :: l₂⟩
        ⟨(ReleaseCompactionFiles c st v e).1, l₁ ++ l₂⟩

/-- Reachability: zero or more system steps. -/
inductive Reachable : SysState → SysState → Prop where
  | refl (s : SysState) : Reachable s s
  | step {s t u : SysState} : Reachable s t → Step t u → Reachable s u

/-- No two distinct live descriptors name a common input file. -/
def LiveDisjoint (s : SysState) : Prop :=
  List.Pairwise (fun c₁ c₂ => ∀ i ∈ inputNumbers c₁, i ∉ inputNumbers c₂)
    s.live

/-- System invariant: every live descriptor's input files have their
exclusion flags set in the current snapshot, every such file number is
present in the snapshot, and live descriptors are pairwise disjoint. -/
def SysInv (s : SysState) : Prop :=
  (∀ c ∈ s.live, ∀ f ∈ allFiles s.version,
    f.number ∈ inputNumbers c → f.being_compacted = true) ∧
  (∀ c ∈ s.live, ∀ i ∈ inputNumbers c,
    ∃ f, f ∈ allFiles s.version ∧ f.number = i) ∧
  LiveDisjoint s

/-! ### Sample data used by witnesses -/

/-- Sample file: 2 MB, key range `[10, 20]`, flag clear. -/
def fA : FileMetaData := ⟨1, 2000000, 10, 20, false⟩

/-- Sample file: key range `[30, 40]`, flag clear. -/
def fB : FileMetaData := ⟨2, 500, 30, 40, false⟩

/-- Sample snapshot: `fA` at level 0, empty levels 1 and 2. -/
def vA : Version := ⟨[[fA], [], []], 5, [0, 0, 0]⟩

/-- Sample hand-built descriptor. -/
def cSample : Compaction :=
  { base_level := 0
    output_level := 1
    input_levels := 2
    max_output_file_size := 100
    max_grandparent_overlap_bytes := 10
    inputs := [[fA], [fB]]
    grandparents := []
    grandparent_index := 0
    seen_key := false
    overlapped_bytes := 0
    deletion_compaction := false
    is_manual_compaction := false
    compaction_style := CompactionStyle.level
    level_ptrs := [0] }

/-- Sample deletion-only descriptor. -/
def cDel : Compaction := { cSample with deletion_compaction := true }

/-- Sample universal-style descriptor. -/
def cUni : Compaction :=
  { cSample with compaction_style := CompactionStyle.universal }

/-- Sample change log holding one earlier record of each kind. -/
def edit0 : VersionEdit := ⟨[(6, 99)], [(1, fB)]⟩

/-- The descriptor produced by constructing over `vA` with base level 0,
output level 1 and base file `fA`. -/
def cA : Compaction :=
  ⟨0, 1, 2, 100, 10, [[fA], []], [], 0, false, 0, false, false,
    CompactionStyle.level, [0]⟩

/-- The snapshot left behind by that construction: `fA` marked, reference
pinned. -/
def vA' : Version := ⟨[[⟨1, 2000000, 10, 20, true⟩], [], []], 6, [0, 0, 0]⟩

/-- Grandparent file of spec scenario C: 4 MB, range `[0, 10]`. -/
def gC1 : FileMetaData := ⟨11, 4000000, 0, 10, false⟩

/-- Grandparent file of spec scenario C: 4 MB, range `[20, 30]`. -/
def gC2 : FileMetaData := ⟨12, 4000000, 20, 30, false⟩

/-- Grandparent file of spec scenario C: 4 MB, range `[40, 50]`. -/
def gC3 : FileMetaData := ⟨13, 4000000, 40, 50, false⟩

/-- Descriptor of spec scenario C, freshly constructed: three 4 MB
grandparent files, ceiling 10 MB, no output key written yet. -/
def cGp : Compaction :=
  { cSample with grandparents := [gC1, gC2, gC3],
                 max_grandparent_overlap_bytes := 10000000 }

/-- Scenario C after the first output key (key 5, inside grandparent
file 1). -/
def cGp1 : Compaction := (ShouldStopBefore cGp 5).2

/-- Scenario C after the stream has crossed into grandparent file 2
(key 25). -/
def cGp2 : Compaction := (ShouldStopBefore cGp1 25).2

/-- Deeper-level file: range `[5, 15]`. -/
def gD1 : FileMetaData := ⟨21, 10, 5, 15, false⟩

/-- Deeper-level file: range `[25, 35]`. -/
def gD2 : FileMetaData := ⟨22, 10, 25, 35, false⟩

/-- Snapshot with `fA` at level 0 and two files at level 2 (beyond the
output level 1). -/
def vD : Version := ⟨[[fA], [], [gD1, gD2]], 0, [0, 0, 0]⟩

/-- Descriptor constructed over `vD` with base level 0 and output
level 1. -/
def cD : Compaction :=
  ⟨0, 1, 2, 100, 10, [[fA], []], [gD1], 0, false, 0, false, false,
    CompactionStyle.level, [0]⟩

/-- Snapshot left behind by constructing `cD` over `vD`. -/
def vD' : Version :=
  ⟨[[⟨1, 2000000, 10, 20, true⟩], [], [gD1, gD2]], 1, [0, 0, 0]⟩

/-- Second descriptor constructed over `vD'`: base = output = level 2,
holding `gD1`. -/
def cD2 : Compaction :=
  ⟨2, 2, 1, 100, 10, [[gD1]], [], 0, false, 0, false, false,
    CompactionStyle.level, []⟩

/-- Snapshot after both constructions: `fA` and `gD1` marked, two
references pinned. -/
def vD2 : Version :=
  ⟨[[⟨1, 2000000, 10, 20, true⟩], [],
    [⟨21, 10, 5, 15, true⟩, gD2]], 2, [0, 0, 0]⟩

/-! ### Helper lemmas -/

/-- Unpacking a successful construction: the precondition held and the
descriptor and updated snapshot are the literal records built by
`mkCompaction`. -/
theorem mkCompaction_eq {v : Version} {base output : Nat}
    {baseFiles : List FileMetaData} {mofs mgob : Nat}
    {style : CompactionStyle} {man del : Bool} {c : Compaction}
    {v' : Version}
    (h : mkCompaction v base output baseFiles mofs mgob style man del =
      some (c, v')) :
    (base ≤ output ∧ baseFiles ⊆ levelFiles v base ∧
      ∀ f ∈ allFiles v,
        f.number ∈ (mkInputs v base output baseFiles).flatten.map
          (fun f => f.number) → f.being_compacted = false) ∧
    c = { base_level := base
          output_level := output
          input_levels := output - base + 1
          max_output_file_size := mofs
          max_grandparent_overlap_bytes := mgob
          inputs := mkInputs v base output baseFiles
          grandparents := filesOverlappingRange
            (levelFiles v (output + 1)) (rangeLo baseFiles)
            (rangeHi baseFiles)
          grandparent_index := 0
          seen_key := false
          overlapped_bytes := 0
          deletion_compaction := del
          is_manual_compaction := man
          compaction_style := style
          level_ptrs := List.replicate (deeperLevels v output).length 0 } ∧
    v' = { levels := v.levels.map (fun fs => fs.map (markOne true
            ((mkInputs v base output baseFiles).flatten.map
              (fun f => f.number))))
           refs := v.refs + 1
           next_file_to_compact_by_size :=
             v.next_file_to_compact_by_size } := by
  unfold mkCompaction at h
  split at h
  case isTrue hcond =>
    simp only [Option.some.injEq, Prod.mk.injEq] at h
    exact ⟨hcond, h.1.symm, h.2.symm⟩
  case isFalse => exact absurd h (by simp)

/-- The records appended by `AddInputDeletions` number exactly one per
input file. -/
theorem deletionRecords_length (base : Nat)
    (l : List (List FileMetaData)) :
    (deletionRecords base l).length = (l.map List.length).sum := by
  induction l generalizing base with
  | nil => rfl
  | cons fs rest ih => simp [deletionRecords, ih]

/-- Marking never changes a file's number. -/
theorem markOne_number (m : Bool) (ids : List Nat) (f : FileMetaData) :
    (markOne m ids f).number = f.number := by
  unfold markOne
  split <;> rfl

/-- Marking sets the flag of a named file. -/
theorem markOne_flag_mem (m : Bool) (ids : List Nat) (f : FileMetaData)
    (h : f.number ∈ ids) : (markOne m ids f).being_compacted = m := by
  simp [markOne, h]

/-- Marking leaves an unnamed file untouched. -/
theorem markOne_not_mem (m : Bool) (ids : List Nat) (f : FileMetaData)
    (h : f.number ∉ ids) : markOne m ids f = f := by
  simp [markOne, h]

/-- Setting and then clearing the flag of a file that started clear gives
back the file. -/
theorem markOne_roundtrip (ids : List Nat) (f : FileMetaData)
    (h : f.number ∈ ids → f.being_compacted = false) :
    markOne false ids (markOne true ids f) = f := by
  obtain ⟨n, fs, sm, lg, bc⟩ := f
  by_cases hm : n ∈ ids
  · have hbc : bc = false := h hm
    subst hbc
    simp [markOne, hm]
  · simp [markOne, hm]

/-- The files of a marked snapshot are the marked files of the
snapshot. -/
theorem allFiles_markFiles (m : Bool) (ids : List Nat) (v : Version) :
    allFiles (markFiles m ids v) = (allFiles v).map (markOne m ids) := by
  unfold allFiles markFiles
  dsimp only
  exact (List.map_flatten (markOne m ids) v.levels).symm

/-- The snapshot a release leaves behind holds exactly the files of the
snapshot it received, each cleared of the descriptor's mark. -/
theorem release_allFiles (c : Compaction) (st : Status) (w : Version)
    (e : VersionEdit) :
    allFiles (ReleaseCompactionFiles c st w e).1 =
      (allFiles w).map (markOne false (inputNumbers c)) := by
  rw [ReleaseCompactionFiles]
  dsimp only
  split
  · exact allFiles_markFiles false (inputNumbers c) w
  · exact allFiles_markFiles false (inputNumbers c) w

/-- Marking then clearing the same file set over level lists whose flagged
files started clear is the identity. -/
theorem levels_roundtrip (v : Version) (ids : List Nat)
    (h : ∀ f ∈ allFiles v, f.number ∈ ids → f.being_compacted = false) :
    (v.levels.map (fun fs => fs.map (markOne true ids))).map
      (fun fs => fs.map (markOne false ids)) = v.levels := by
  rw [List.map_map]
  conv_rhs => rw [← List.map_id v.levels]
  apply List.map_congr_left
  intro fs hfs
  simp only [Function.comp_apply, List.map_map, id_eq]
  conv_rhs => rw [← List.map_id fs]
  apply List.map_congr_left
  intro f hf
  exact markOne_roundtrip ids f
    (fun hm => h f (List.mem_flatten.mpr ⟨fs, hfs, hf⟩) hm)

/-! ### Claim theorems -/

/-- C7: for a deletion-only descriptor, `AddInputDeletions` appends to the
change log exactly one remove-file record per input file across all input
levels — the records `(base_level + which, number)` in order — and
appends no add-file record. -/
theorem addInputDeletions_spec (c : Compaction) (edit : VersionEdit)
    (hdel : c.deletion_compaction = true) :
    (AddInputDeletions c edit).new_files = edit.new_files ∧
    (AddInputDeletions c edit).deleted_files =
      edit.deleted_files ++ deletionRecords c.base_level c.inputs ∧
    (AddInputDeletions c edit).deleted_files.length =
      edit.deleted_files.length + (c.inputs.map List.length).sum := by
  refine ⟨rfl, rfl, ?_⟩
  simp [AddInputDeletions, deletionRecords_length]

/-- C7 witness: the deletion-only sample descriptor (two input levels, one
file each) appends exactly two remove records and zero add records. -/
theorem addInputDeletions_spec_witness :
    cDel.deletion_compaction = true ∧
    ((AddInputDeletions cDel edit0).new_files = edit0.new_files ∧
    (AddInputDeletions cDel edit0).deleted_files =
      edit0.deleted_files ++ deletionRecords cDel.base_level cDel.inputs ∧
    (AddInputDeletions cDel edit0).deleted_files.length =
      edit0.deleted_files.length + (cDel.inputs.map List.length).sum) :=
  ⟨rfl, addInputDeletions_spec cDel edit0 rfl⟩

/-- C8: `OutputFilePreallocationSize` returns `max_output_file_size` for a
leveled-style compaction and the total byte size of all input files for a
universal (whole-set-merge) compaction. -/
theorem outputFilePreallocationSize_spec (c : Compaction) :
    (c.compaction_style = CompactionStyle.level →
      OutputFilePreallocationSize c = c.max_output_file_size) ∧
    (c.compaction_style = CompactionStyle.universal →
      OutputFilePreallocationSize c = totalFileSize c.inputs.flatten) := by
  constructor <;> intro h <;>
    simp [OutputFilePreallocationSize, h]

/-- C8 witness: evaluated on the leveled and the universal sample
descriptors. -/
theorem outputFilePreallocationSize_spec_witness :
    OutputFilePreallocationSize cSample = cSample.max_output_file_size ∧
    OutputFilePreallocationSize cUni = totalFileSize cUni.inputs.flatten :=
  ⟨(outputFilePreallocationSize_spec cSample).1 rfl,
   (outputFilePreallocationSize_spec cUni).2 rfl⟩

/-- C9: a constructed descriptor satisfies `base_level ≤ output_level` and
`input_levels = output_level - base_level + 1`, and the per-key operations
that update a descriptor (`ShouldStopBefore`,
`KeyNotExistsBeyondOutputLevel`) never change `base_level`,
`output_level` or `input_levels`, so the relation is preserved. -/
theorem input_levels_spec {v : Version} {base output : Nat}
    {baseFiles : List FileMetaData} {mofs mgob : Nat}
    {style : CompactionStyle} {man del : Bool} {c : Compaction}
    {v' : Version}
    (hmk : mkCompaction v base output baseFiles mofs mgob style man del =
      some (c, v')) :
    (c.base_level ≤ c.output_level ∧
      c.input_levels = c.output_level - c.base_level + 1) ∧
    (∀ (d : Compaction) (key : Nat),
      (ShouldStopBefore d key).2.base_level = d.base_level ∧
      (ShouldStopBefore d key).2.output_level = d.output_level ∧
      (ShouldStopBefore d key).2.input_levels = d.input_levels) ∧
    (∀ (d : Compaction) (w : Version) (ukey : Nat),
      (KeyNotExistsBeyondOutputLevel d w ukey).2.base_level =
        d.base_level ∧
      (KeyNotExistsBeyondOutputLevel d w ukey).2.output_level =
        d.output_level ∧
      (KeyNotExistsBeyondOutputLevel d w ukey).2.input_levels =
        d.input_levels) := by
  obtain ⟨⟨hbo, -, -⟩, hc, -⟩ := mkCompaction_eq hmk
  refine ⟨?_, ?_, ?_⟩
  · rw [hc]
    exact ⟨hbo, rfl⟩
  · intro d key
    unfold ShouldStopBefore
    split <;> exact ⟨rfl, rfl, rfl⟩
  · intro d w ukey
    exact ⟨rfl, rfl, rfl⟩

/-- C9 witness: the relation at a concrete construction and the
preservation facts evaluated at concrete per-key calls. -/
theorem input_levels_spec_witness :
    (cA.base_level ≤ cA.output_level ∧
      cA.input_levels = cA.output_level - cA.base_level + 1) ∧
    (ShouldStopBefore cA 15).2.input_levels = cA.input_levels ∧
    (KeyNotExistsBeyondOutputLevel cA vA 15).2.input_levels =
      cA.input_levels := by
  have h : mkCompaction vA 0 1 [fA] 100 10 CompactionStyle.level
      false false = some (cA, vA') := by decide
  have hs := input_levels_spec h
  exact ⟨hs.1, (hs.2.1 cA 15).2.2, (hs.2.2 cA vA 15).2.2⟩

/-- For a single-level-down compaction the input lists are the chosen base
files and the overlapping files of the output level. -/
theorem mkInputs_succ (v : Version) (base : Nat)
    (bf : List FileMetaData) :
    mkInputs v base (base + 1) bf =
      [bf, filesOverlappingRange (levelFiles v (base + 1))
        (rangeLo bf) (rangeHi bf)] := by
  have h2 : base + 1 - base + 1 = 2 := by omega
  rw [mkInputs, h2]
  rfl

/-- C1: for a descriptor constructed to compact one level down,
`IsTrivialMove` is true iff the base level contributes exactly one input
file, that file's range overlaps no file at the output level, and the
grandparent overlap accumulated for it is at most the ceiling — and it is
false for every deletion-only and every manual compaction regardless of
ranges. -/
theorem isTrivialMove_spec {v : Version} {base : Nat}
    {baseFiles : List FileMetaData} {mofs mgob : Nat}
    {style : CompactionStyle} {man del : Bool} {c : Compaction}
    {v' : Version}
    (hmk : mkCompaction v base (base + 1) baseFiles mofs mgob style man
      del = some (c, v')) :
    (IsTrivialMove c = true ↔
      (man = false ∧ del = false ∧
        ∃ f, baseFiles = [f] ∧
          (∀ g ∈ levelFiles v (base + 1), rangesOverlap f g = false) ∧
          totalFileSize (filesOverlappingRange (levelFiles v (base + 2))
            f.smallest f.largest) ≤ mgob)) ∧
    ((del = true ∨ man = true) → IsTrivialMove c = false) := by
  obtain ⟨-, hc, -⟩ := mkCompaction_eq hmk
  rw [mkInputs_succ] at hc
  have hman : c.is_manual_compaction = man := by rw [hc]
  have hdel : c.deletion_compaction = del := by rw [hc]
  have hil : c.input_levels = 2 := by rw [hc]; simp
  have hin : c.inputs = [baseFiles, filesOverlappingRange
      (levelFiles v (base + 1)) (rangeLo baseFiles)
      (rangeHi baseFiles)] := by rw [hc]
  have hmg : c.max_grandparent_overlap_bytes = mgob := by rw [hc]
  have hgp : c.grandparents = filesOverlappingRange
      (levelFiles v (base + 2)) (rangeLo baseFiles)
      (rangeHi baseFiles) := by rw [hc]
  have hn0 : num_input_files c 0 = baseFiles.length := by
    rw [num_input_files, hil, hin, if_pos (by decide)]
    rfl
  have hn1 : num_input_files c 1 = (filesOverlappingRange
      (levelFiles v (base + 1)) (rangeLo baseFiles)
      (rangeHi baseFiles)).length := by
    rw [num_input_files, hil, hin, if_pos (by decide)]
    rfl
  have key : IsTrivialMove c = true ↔
      (man = false ∧ del = false ∧
        ∃ f, baseFiles = [f] ∧
          (∀ g ∈ levelFiles v (base + 1), rangesOverlap f g = false) ∧
          totalFileSize (filesOverlappingRange (levelFiles v (base + 2))
            f.smallest f.largest) ≤ mgob) := by
    rw [IsTrivialMove, hn0, hn1, hman, hdel, hmg, hgp]
    simp only [Bool.and_eq_true, Bool.not_eq_true', beq_iff_eq,
      decide_eq_true_eq]
    constructor
    · rintro ⟨⟨⟨⟨hman', hdel'⟩, hlen⟩, hovl⟩, hle⟩
      obtain ⟨f, rfl⟩ := List.length_eq_one.mp hlen
      refine ⟨hman', hdel', f, rfl, ?_, ?_⟩
      · intro g hg
        have h0 : (filesOverlappingRange (levelFiles v (base + 1))
            (rangeLo [f]) (rangeHi [f])) = [] :=
          List.length_eq_zero.mp hovl
        have h1 := List.filter_eq_nil_iff.mp h0 g hg
        simpa [rangesOverlap, rangeLo, rangeHi] using h1
      · simpa [rangeLo, rangeHi] using hle
    · rintro ⟨hman', hdel', f, rfl, hovl, hle⟩
      refine ⟨⟨⟨⟨hman', hdel'⟩, by simp⟩, ?_⟩,
        by simpa [rangeLo, rangeHi] using hle⟩
      rw [List.length_eq_zero]
      apply List.filter_eq_nil_iff.mpr
      intro g hg
      have h1 := hovl g hg
      simpa [rangesOverlap, rangeLo, rangeHi] using h1
  refine ⟨key, fun hdm => ?_⟩
  cases hb : IsTrivialMove c with
  | false => rfl
  | true =>
    exfalso
    obtain ⟨hman', hdel', -⟩ := key.mp hb
    rcases hdm with h' | h' <;> simp_all

/-- C1 witness: spec scenario A — one 2 MB base file, no file at the
output level, no grandparent file, ceiling 10 — is classified a trivial
move, and the characterization holds at that construction. -/
theorem isTrivialMove_spec_witness :
    IsTrivialMove cA = true ∧
    ((IsTrivialMove cA = true ↔
      (false = false ∧ false = false ∧
        ∃ f, [fA] = [f] ∧
          (∀ g ∈ levelFiles vA 1, rangesOverlap f g = false) ∧
          totalFileSize (filesOverlappingRange (levelFiles vA 2)
            f.smallest f.largest) ≤ 10)) ∧
    ((false = true ∨ false = true) → IsTrivialMove cA = false)) :=
  ⟨by decide, @isTrivialMove_spec vA 0 [fA] 100 10 CompactionStyle.level
    false false cA vA' (by decide)⟩

/-- C10: `num_input_files` is total: it returns 0 whenever `which < 0` or
`which ≥ input_levels()`, and in range it returns the length of the input
file list at position `which` (level `base_level() + which`), the access
index being in bounds for a descriptor whose input list spans its input
levels. -/
theorem num_input_files_total (c : Compaction) (which : Int)
    (h : c.inputs.length = c.input_levels) :
    ((which < 0 ∨ (c.input_levels : Int) ≤ which) →
      num_input_files c which = 0) ∧
    (0 ≤ which → which < (c.input_levels : Int) →
      which.toNat < c.inputs.length ∧
      num_input_files c which =
        ((c.inputs.get? which.toNat).getD []).length) := by
  constructor
  · intro hout
    rw [num_input_files, if_neg]
    omega
  · intro h0 hlt
    refine ⟨by omega, ?_⟩
    rw [num_input_files, if_pos ⟨h0, hlt⟩]

/-- C10 witness: evaluated on the sample descriptor at `which = 1` (in
range), with the out-of-range conclusions instantiated there too. -/
theorem num_input_files_total_witness :
    cSample.inputs.length = cSample.input_levels ∧
    (((1 : Int) < 0 ∨ (cSample.input_levels : Int) ≤ 1) →
      num_input_files cSample 1 = 0) ∧
    ((0 : Int) ≤ 1 → (1 : Int) < (cSample.input_levels : Int) →
      (1 : Int).toNat < cSample.inputs.length ∧
      num_input_files cSample 1 =
        ((cSample.inputs.get? (1 : Int).toNat).getD []).length) :=
  ⟨rfl, (num_input_files_total cSample 1 rfl).1,
    (num_input_files_total cSample 1 rfl).2⟩

/-- C4: immediately before a successful construction every input file's
exclusion flag is clear (construction never sets a flag that is already
set), immediately after construction every input file's flag is set, and
immediately after release every input file's flag is clear again. -/
theorem markFilesBeingCompacted_lifecycle {v : Version}
    {base output : Nat} {baseFiles : List FileMetaData} {mofs mgob : Nat}
    {style : CompactionStyle} {man del : Bool} {c : Compaction}
    {v' : Version}
    (hmk : mkCompaction v base output baseFiles mofs mgob style man del =
      some (c, v')) :
    (∀ f ∈ allFiles v, f.number ∈ inputNumbers c →
      f.being_compacted = false) ∧
    (∀ f ∈ allFiles v', f.number ∈ inputNumbers c →
      f.being_compacted = true) ∧
    (∀ (st : Status) (e : VersionEdit),
      ∀ f ∈ allFiles (ReleaseCompactionFiles c st v' e).1,
        f.number ∈ inputNumbers c → f.being_compacted = false) := by
  obtain ⟨⟨hbo, hsub, hclear⟩, hc, hv⟩ := mkCompaction_eq hmk
  have hids : inputNumbers c =
      (mkInputs v base output baseFiles).flatten.map (fun f => f.number) :=
    by rw [hc]; rfl
  refine ⟨?_, ?_, ?_⟩
  · intro f hf hmem
    exact hclear f hf (hids ▸ hmem)
  · intro f hf hmem
    rw [hv] at hf
    have hf' : f ∈ (allFiles v).map (markOne true
        ((mkInputs v base output baseFiles).flatten.map
          (fun f => f.number))) := by
      have := allFiles_markFiles true
        ((mkInputs v base output baseFiles).flatten.map
          (fun f => f.number)) v
      unfold markFiles at this
      exact this ▸ hf
    obtain ⟨f₀, hf₀, rfl⟩ := List.mem_map.mp hf'
    rw [markOne_number] at hmem
    rw [hids] at hmem
    exact markOne_flag_mem true _ f₀ hmem
  · intro st e f hf hmem
    rw [release_allFiles] at hf
    obtain ⟨f₀, hf₀, rfl⟩ := List.mem_map.mp hf
    rw [markOne_number] at hmem
    exact markOne_flag_mem false _ f₀ hmem

/-- C4 witness: at the concrete construction over `vA`, the base file's
flag is clear before, set after construction, and clear again after a
release. -/
theorem markFilesBeingCompacted_lifecycle_witness :
    fA.being_compacted = false ∧
    (⟨1, 2000000, 10, 20, true⟩ : FileMetaData).being_compacted = true ∧
    fA.being_compacted = false := by
  have hmk : mkCompaction vA 0 1 [fA] 100 10 CompactionStyle.level
      false false = some (cA, vA') := by decide
  have h := markFilesBeingCompacted_lifecycle hmk
  exact ⟨h.1 fA (by decide) (by decide),
    h.2.1 ⟨1, 2000000, 10, 20, true⟩ (by decide) (by decide),
    h.2.2 ⟨true⟩ edit0 fA (by decide) (by decide)⟩

/-- The snapshot left behind by releasing a just-constructed descriptor
with a failure status: the original file lists (all marks undone), the
original reference count, and the fairness cursor of the base level reset
to 0. -/
theorem release_after_mk {v : Version} {base output : Nat}
    {baseFiles : List FileMetaData} {mofs mgob : Nat}
    {style : CompactionStyle} {man del : Bool} {c : Compaction}
    {v' : Version} {st : Status} {e : VersionEdit}
    (hmk : mkCompaction v base output baseFiles mofs mgob style man del =
      some (c, v'))
    (hst : st.ok = false) :
    (ReleaseCompactionFiles c st v' e).1 =
      ⟨v.levels, v.refs, v.next_file_to_compact_by_size.set base 0⟩ := by
  obtain ⟨⟨hbo, hsub, hclear⟩, hc, hv⟩ := mkCompaction_eq hmk
  have hids : inputNumbers c =
      (mkInputs v base output baseFiles).flatten.map (fun f => f.number) :=
    by rw [hc]; rfl
  have hbase : c.base_level = base := by rw [hc]
  simp only [ReleaseCompactionFiles, MarkFilesBeingCompacted,
    ResetNextCompactionIndex, markFiles, hst, Bool.false_eq_true,
    if_false]
  ext : 1
  · dsimp only
    rw [hids, hv]
    exact levels_roundtrip v _ hclear
  · dsimp only
    rw [hv]
    simp
  · dsimp only
    rw [hv, hbase]

/-- C6: releasing a constructed descriptor with a failure status clears
the exclusion flag on every input file, drops the pinned snapshot
reference, resets the base level's selection-fairness cursor, appends
nothing to the change log (so no partial output file is referenced), and
afterwards a newly constructed descriptor may select the same files. -/
theorem releaseCompactionFiles_failure {v : Version} {base output : Nat}
    {baseFiles : List FileMetaData} {mofs mgob : Nat}
    {style : CompactionStyle} {man del : Bool} {c : Compaction}
    {v' : Version} {st : Status} {e : VersionEdit}
    (hmk : mkCompaction v base output baseFiles mofs mgob style man del =
      some (c, v'))
    (hst : st.ok = false) :
    (∀ f ∈ allFiles (ReleaseCompactionFiles c st v' e).1,
      f.number ∈ inputNumbers c → f.being_compacted = false) ∧
    (ReleaseCompactionFiles c st v' e).1.refs = v.refs ∧
    (base < v.next_file_to_compact_by_size.length →
      ((ReleaseCompactionFiles c st v' e).1.next_file_to_compact_by_size)[base]? =
        some 0) ∧
    (ReleaseCompactionFiles c st v' e).2 = e ∧
    (e.new_files = [] →
      (ReleaseCompactionFiles c st v' e).2.new_files = []) ∧
    (mkCompaction (ReleaseCompactionFiles c st v' e).1 base output
      baseFiles mofs mgob style man del).isSome = true := by
  obtain ⟨⟨hbo, hsub, hclear⟩, hc, hv⟩ := mkCompaction_eq hmk
  have hrel := release_after_mk (e := e) hmk hst
  refine ⟨?_, ?_, ?_, rfl, fun h => h, ?_⟩
  · intro f hf hmem
    rw [release_allFiles] at hf
    obtain ⟨f₀, hf₀, rfl⟩ := List.mem_map.mp hf
    rw [markOne_number] at hmem
    exact markOne_flag_mem false _ f₀ hmem
  · rw [hrel]
  · intro hlen
    rw [hrel]
    exact List.getElem?_set_self (by simpa using hlen)
  · rw [hrel, mkCompaction, if_pos]
    · rfl
    · exact ⟨hbo, hsub, hclear⟩

/-- C6 witness: releasing the concrete constructed descriptor with a
failure status restores the flag, the reference count and the cursor, and
the same construction succeeds again. -/
theorem releaseCompactionFiles_failure_witness :
    (∀ f ∈ allFiles (ReleaseCompactionFiles cA ⟨false⟩ vA' edit0).1,
      f.number ∈ inputNumbers cA → f.being_compacted = false) ∧
    (ReleaseCompactionFiles cA ⟨false⟩ vA' edit0).1.refs = vA.refs ∧
    ((0 : Nat) < vA.next_file_to_compact_by_size.length →
      ((ReleaseCompactionFiles cA ⟨false⟩ vA' edit0).1.next_file_to_compact_by_size)[(0 : Nat)]? =
        some 0) ∧
    (ReleaseCompactionFiles cA ⟨false⟩ vA' edit0).2 = edit0 ∧
    (edit0.new_files = [] →
      (ReleaseCompactionFiles cA ⟨false⟩ vA' edit0).2.new_files = []) ∧
    (mkCompaction (ReleaseCompactionFiles cA ⟨false⟩ vA' edit0).1 0 1
      [fA] 100 10 CompactionStyle.level false false).isSome = true :=
  releaseCompactionFiles_failure (by decide) rfl

/-- The cursor advance adds the sizes of exactly the files newly entered
(those whose ranges begin at or before the key). -/
theorem gpEnter_snd (fs : List FileMetaData) (ob key : Nat) :
    (gpEnter fs ob key).2 =
      ob + totalFileSize (fs.takeWhile (fun f => decide (f.smallest ≤ key))) := by
  induction fs generalizing ob with
  | nil => simp [gpEnter, totalFileSize]
  | cons f rest ih =>
    by_cases h : f.smallest ≤ key
    · simp [gpEnter, h, ih, totalFileSize]
      omega
    · simp [gpEnter, h, totalFileSize]

/-- On a well-formed (sorted, disjoint) file list the files whose ranges
begin at or before the key form exactly the leading segment the cursor
enters. -/
theorem takeWhile_entered_eq_filter (fs : List FileMetaData) (key : Nat)
    (hs : LevelSorted fs) :
    fs.takeWhile (fun f => decide (f.smallest ≤ key)) =
      fs.filter (fun f => decide (f.smallest ≤ key)) := by
  induction fs with
  | nil => rfl
  | cons f rest ih =>
    obtain ⟨hp, hr⟩ := hs
    rw [List.pairwise_cons] at hp
    by_cases h : f.smallest ≤ key
    · simp [List.takeWhile_cons, List.filter_cons, h,
        ih ⟨hp.2, fun g hg => hr g (List.mem_cons_of_mem f hg)⟩]
    · have hfil : rest.filter (fun f => decide (f.smallest ≤ key)) = [] := by
        rw [List.filter_eq_nil_iff]
        intro g hg
        have h1 := hp.1 g hg
        have h2 := hr f (List.mem_cons_self f rest)
        simp only [decide_eq_true_eq]
        omega
      simp [List.takeWhile_cons, List.filter_cons, h, hfil]

/-- The boolean returned by `ShouldStopBefore` is the seen-key guard
conjoined with the comparison of the advanced overlap counter against the
ceiling. -/
theorem shouldStopBefore_fst (c : Compaction) (key : Nat) :
    (ShouldStopBefore c key).1 =
      decide (c.seen_key = true ∧ c.max_grandparent_overlap_bytes <
        (gpEnter (c.grandparents.drop c.grandparent_index)
          c.overlapped_bytes key).2) := by
  rw [ShouldStopBefore]
  split
  · next h => simp [h]
  · next h => simp [h]

/-- C2: for any descriptor state with well-formed grandparent metadata,
`ShouldStopBefore(key)` returns true exactly when at least one key has
been written to the current output file and the cumulative size of the
grandparent files the output stream has crossed into since the last
output-file boundary exceeds the grandparent-overlap ceiling; in
particular it never returns true on the very first key of an output file
(`seen_key` still false). -/
theorem shouldStopBefore_spec (c : Compaction) (key : Nat)
    (hs : LevelSorted c.grandparents) :
    ((ShouldStopBefore c key).1 = true ↔
      (c.seen_key = true ∧
        c.max_grandparent_overlap_bytes < bytesCrossed c key)) ∧
    (c.seen_key = false → (ShouldStopBefore c key).1 = false) := by
  have hsd : LevelSorted (c.grandparents.drop c.grandparent_index) :=
    ⟨hs.1.sublist (List.drop_sublist c.grandparent_index c.grandparents),
     fun f hf => hs.2 f (List.mem_of_mem_drop hf)⟩
  have hcross : (gpEnter (c.grandparents.drop c.grandparent_index)
      c.overlapped_bytes key).2 = bytesCrossed c key := by
    rw [gpEnter_snd, takeWhile_entered_eq_filter _ key hsd, bytesCrossed]
  constructor
  · rw [shouldStopBefore_fst, hcross]
    simp
  · intro hseen
    rw [shouldStopBefore_fst]
    simp [hseen]

/-- C2 witness: spec scenario C run in full — key 5 enters file 1 (4 MB,
first key, no stop), key 25 crosses into file 2 (cumulative 8 MB, no
stop), key 41 — the first key inside file 3 — crosses into it (cumulative
12 MB > 10 MB ceiling) and `ShouldStopBefore` fires, matching the
characterization. -/
theorem shouldStopBefore_spec_witness :
    (ShouldStopBefore cGp 5).1 = false ∧
    (ShouldStopBefore cGp1 25).1 = false ∧
    (ShouldStopBefore cGp2 41).1 = true ∧
    (((ShouldStopBefore cGp2 41).1 = true ↔
      (cGp2.seen_key = true ∧
        cGp2.max_grandparent_overlap_bytes < bytesCrossed cGp2 41)) ∧
    (cGp2.seen_key = false → (ShouldStopBefore cGp2 41).1 = false)) :=
  ⟨by decide, by decide, by decide,
   shouldStopBefore_spec cGp2 41 ⟨by decide, by decide⟩⟩

/-- On a well-formed level the cursor scan reports exactly whether the key
falls within some file's range. -/
theorem knebolScan_snd (fs : List FileMetaData) (k : Nat)
    (hs : LevelSorted fs) :
    (knebolScan fs k).2 =
      fs.any (fun f => f.smallest ≤ k && k ≤ f.largest) := by
  induction fs with
  | nil => rfl
  | cons f rest ih =>
    obtain ⟨hp, hr⟩ := hs
    rw [List.pairwise_cons] at hp
    by_cases h : k ≤ f.largest
    · by_cases h2 : f.smallest ≤ k
      · simp [knebolScan, h, h2]
      · have hrest : rest.any (fun f => f.smallest ≤ k && k ≤ f.largest) =
            false := by
          rw [List.any_eq_false]
          intro g hg
          have h1 := hp.1 g hg
          simp only [Bool.and_eq_true, decide_eq_true_eq, not_and]
          omega
        simp [knebolScan, h, h2, hrest]
    · have ih' := ih ⟨hp.2, fun g hg => hr g (List.mem_cons_of_mem f hg)⟩
      simp [knebolScan, h, ih']

/-- Every file the cursor scan skips ends strictly before the key. -/
theorem knebolScan_skipped (fs : List FileMetaData) (k : Nat) :
    ∀ f ∈ fs.take (knebolScan fs k).1, f.largest < k := by
  induction fs with
  | nil => simp
  | cons f rest ih =>
    by_cases h : k ≤ f.largest
    · simp [knebolScan, h]
    · intro g hg
      simp only [knebolScan, if_neg h, List.take_succ_cons,
        List.mem_cons] at hg
      rcases hg with rfl | hg
      · omega
      · exact ih g hg

/-- Skipping a leading segment of files that all end before the key does
not change whether the key falls within some file of the level. -/
theorem any_drop_of_skipped (fs : List FileMetaData) (p k : Nat)
    (h : ∀ f ∈ fs.take p, f.largest < k) :
    (fs.drop p).any (fun f => f.smallest ≤ k && k ≤ f.largest) =
      fs.any (fun f => f.smallest ≤ k && k ≤ f.largest) := by
  conv_rhs => rw [← List.take_append_drop p fs]
  rw [List.any_append]
  have htake : (fs.take p).any (fun f => f.smallest ≤ k && k ≤ f.largest) =
      false := by
    rw [List.any_eq_false]
    intro g hg
    have h1 := h g hg
    simp only [Bool.and_eq_true, decide_eq_true_eq, not_and]
    omega
  rw [htake, Bool.false_or]

/-- The cursor invariant weakens to any later key. -/
theorem PtrInv_mono {levels : List (List FileMetaData)} {ptrs : List Nat}
    {k k' : Nat} (h : k ≤ k') (hi : PtrInv levels ptrs k) :
    PtrInv levels ptrs k' :=
  hi.imp (fun fs p hfp f hf => lt_of_lt_of_le (hfp f hf) h)

/-- All-zero cursors satisfy the invariant for any key. -/
theorem PtrInv_zero (levels : List (List FileMetaData)) (k : Nat) :
    PtrInv levels (List.replicate levels.length 0) k := by
  induction levels with
  | nil => exact List.Forall₂.nil
  | cons fs rest ih =>
    rw [List.length_cons, List.replicate_succ]
    exact List.Forall₂.cons (by simp) ih

/-- One cursor-based call, under the cursor invariant, agrees with the
brute-force scan, only advances cursors, and re-establishes the invariant
for every later key. -/
theorem knebol_step (levels : List (List FileMetaData)) (ptrs : List Nat)
    (k : Nat) (hsort : ∀ fs ∈ levels, LevelSorted fs)
    (hinv : PtrInv levels ptrs k) :
    (knebol levels ptrs k).1 = !keyInAnyDeeperFile levels k ∧
    PtrsLe ptrs (knebol levels ptrs k).2 ∧
    ∀ k', k < k' → PtrInv levels (knebol levels ptrs k).2 k' := by
  induction levels generalizing ptrs with
  | nil =>
    cases hinv
    exact ⟨rfl, List.Forall₂.nil, fun k' _ => List.Forall₂.nil⟩
  | cons fs restL ih =>
    cases hinv with
    | cons hfp hrest =>
      rename_i p restP
      have hsfs : LevelSorted fs := hsort fs (List.mem_cons_self fs restL)
      have hsrest : ∀ g ∈ restL, LevelSorted g :=
        fun g hg => hsort g (List.mem_cons_of_mem fs hg)
      have hsdrop : LevelSorted (fs.drop p) :=
        ⟨hsfs.1.sublist (List.drop_sublist p fs),
         fun f hf => hsfs.2 f (List.mem_of_mem_drop hf)⟩
      have hscan : (knebolScan (fs.drop p) k).2 =
          fs.any (fun f => f.smallest ≤ k && k ≤ f.largest) := by
        rw [knebolScan_snd (fs.drop p) k hsdrop,
          any_drop_of_skipped fs p k hfp]
      have hnew : ∀ k', k ≤ k' →
          ∀ f ∈ fs.take (p + (knebolScan (fs.drop p) k).1),
            f.largest < k' := by
        intro k' hk' f hf
        rw [List.take_add] at hf
        rcases List.mem_append.mp hf with hf | hf
        · exact lt_of_lt_of_le (hfp f hf) hk'
        · exact lt_of_lt_of_le (knebolScan_skipped (fs.drop p) k f hf) hk'
      rw [knebol]
      dsimp only
      cases hr2 : (knebolScan (fs.drop p) k).2 with
      | true =>
        rw [if_pos rfl]
        refine ⟨?_, ?_, ?_⟩
        · rw [keyInAnyDeeperFile, List.any_cons, ← hscan, hr2]
          rfl
        · exact List.Forall₂.cons (Nat.le_add_right p _)
            (List.forall₂_same.2 (fun a _ => le_refl a))
        · intro k' hk'
          exact List.Forall₂.cons (hnew k' (Nat.le_of_lt hk'))
            (PtrInv_mono (Nat.le_of_lt hk') hrest)
      | false =>
        rw [if_neg (by simp [hr2])]
        obtain ⟨ihf, ihle, ihinv⟩ := ih restP hsrest hrest
        refine ⟨?_, ?_, ?_⟩
        · rw [keyInAnyDeeperFile, List.any_cons, ← hscan, hr2, ihf,
            keyInAnyDeeperFile]
          rfl
        · exact List.Forall₂.cons (Nat.le_add_right p _) ihle
        · intro k' hk'
          exact List.Forall₂.cons (hnew k' (Nat.le_of_lt hk'))
            (ihinv k' hk')

/-- A whole run of cursor-based calls, from cursors satisfying the
invariant for the first key, over strictly increasing keys: every answer
agrees with the brute-force scan, and the cursor vectors only ever
advance. -/
theorem knebolRun_correct (levels : List (List FileMetaData))
    (hsort : ∀ fs ∈ levels, LevelSorted fs) :
    ∀ (keys : List Nat) (ptrs : List Nat),
      List.Chain' (· < ·) keys →
      (∀ k, keys.head? = some k → PtrInv levels ptrs k) →
      ((knebolRun levels ptrs keys).map Prod.fst =
        keys.map (fun k => !keyInAnyDeeperFile levels k)) ∧
      List.Chain' PtrsLe
        (ptrs :: (knebolRun levels ptrs keys).map Prod.snd) := by
  intro keys
  induction keys with
  | nil =>
    intro ptrs _ _
    exact ⟨rfl, List.chain'_singleton ptrs⟩
  | cons k ks ih =>
    intro ptrs hchain hinv
    have hinvk := hinv k rfl
    obtain ⟨hfst, hle, hnext⟩ := knebol_step levels ptrs k hsort hinvk
    rw [List.chain'_cons'] at hchain
    have ihres := ih (knebol levels ptrs k).2 hchain.2 (fun k2 hk2 =>
      hnext k2 (hchain.1 k2 hk2))
    rw [knebolRun]
    constructor
    · rw [List.map_cons, List.map_cons, hfst, ihres.1]
    · rw [List.map_cons, List.chain'_cons']
      refine ⟨?_, ihres.2⟩
      intro y hy
      simp only [List.head?_cons, Option.mem_def, Option.some.injEq] at hy
      rw [← hy]
      exact hle

/-- A descriptor-level run is the cursor-vector run over the levels beyond
the output level: same answers, same cursor trace. -/
theorem knebolRunC_eq (v : Version) (c : Compaction) (keys : List Nat) :
    (knebolRunC v c keys).map Prod.fst =
      (knebolRun (deeperLevels v c.output_level) c.level_ptrs keys).map
        Prod.fst ∧
    (knebolRunC v c keys).map (fun r => r.2.level_ptrs) =
      (knebolRun (deeperLevels v c.output_level) c.level_ptrs keys).map
        Prod.snd := by
  induction keys generalizing c with
  | nil => exact ⟨rfl, rfl⟩
  | cons k ks ih =>
    have ih' := ih { c with level_ptrs :=
      (knebol (deeperLevels v c.output_level) c.level_ptrs k).2 }
    rw [knebolRunC, knebolRun]
    constructor
    · rw [List.map_cons, List.map_cons]
      congr 1
      exact ih'.1
    · rw [List.map_cons, List.map_cons]
      congr 1
      exact ih'.2

/-- C3: for a constructed descriptor queried with strictly increasing user
keys, every answer of the cursor-based `KeyNotExistsBeyondOutputLevel`
equals the brute-force scan of all file ranges at every level strictly
deeper than the output level (true iff the key falls within no deeper
file's range), and the cursor vector `level_ptrs` only ever advances,
never regresses. -/
theorem keyNotExistsBeyondOutputLevel_spec {v : Version}
    {base output : Nat} {baseFiles : List FileMetaData} {mofs mgob : Nat}
    {style : CompactionStyle} {man del : Bool} {c : Compaction}
    {v' : Version}
    (hmk : mkCompaction v base output baseFiles mofs mgob style man del =
      some (c, v'))
    (keys : List Nat) (hkeys : List.Chain' (· < ·) keys)
    (hsort : ∀ fs ∈ deeperLevels v output, LevelSorted fs) :
    ((knebolRunC v c keys).map Prod.fst =
      keys.map (fun k => !keyInAnyDeeperFile (deeperLevels v output) k)) ∧
    List.Chain' PtrsLe (c.level_ptrs ::
      (knebolRunC v c keys).map (fun r => r.2.level_ptrs)) := by
  obtain ⟨-, hc, -⟩ := mkCompaction_eq hmk
  have hout : c.output_level = output := by rw [hc]
  have hlp : c.level_ptrs =
      List.replicate (deeperLevels v output).length 0 := by rw [hc]
  have heq := knebolRunC_eq v c keys
  rw [heq.1, heq.2, hout, hlp]
  exact knebolRun_correct (deeperLevels v output) hsort keys
    (List.replicate (deeperLevels v output).length 0) hkeys
    (fun k _ => PtrInv_zero (deeperLevels v output) k)

/-- C3 witness: keys 7, 20, 30 against deeper files `[5,15]` and
`[25,35]`: answers false, true, false — matching the brute-force scan —
with the cursor only advancing. -/
theorem keyNotExistsBeyondOutputLevel_spec_witness :
    (knebolRunC vD cD [7, 20, 30]).map Prod.fst = [false, true, false] ∧
    (((knebolRunC vD cD [7, 20, 30]).map Prod.fst =
      [7, 20, 30].map (fun k =>
        !keyInAnyDeeperFile (deeperLevels vD 1) k)) ∧
    List.Chain' PtrsLe (cD.level_ptrs ::
      (knebolRunC vD cD [7, 20, 30]).map (fun r => r.2.level_ptrs))) :=
  ⟨by decide,
   @keyNotExistsBeyondOutputLevel_spec vD 0 1 [fA] 100 10
     CompactionStyle.level false false cD vD' (by decide) [7, 20, 30]
     (by norm_num [List.chain'_cons])
     (by
       intro fs hfs
       have hfs' : fs = [gD1, gD2] := by
         simpa [deeperLevels, vD] using hfs
       subst hfs'
       exact ⟨by decide, by decide⟩)⟩

/-- Every file of a level list belongs to the snapshot's file set. -/
theorem levelFiles_subset (v : Version) (ℓ : Nat) :
    levelFiles v ℓ ⊆ allFiles v := by
  intro f hf
  unfold levelFiles at hf
  cases hget : v.levels.get? ℓ with
  | none => rw [hget] at hf; cases hf
  | some fs =>
    rw [hget] at hf
    exact List.mem_flatten.mpr ⟨fs, List.get?_mem hget, hf⟩

/-- Every input file selected by construction comes from the snapshot. -/
theorem mkInputs_subset (v : Version) (base output : Nat)
    (bf : List FileMetaData) (hsub : bf ⊆ levelFiles v base) :
    ∀ g ∈ (mkInputs v base output bf).flatten, g ∈ allFiles v := by
  intro g hg
  rw [List.mem_flatten] at hg
  obtain ⟨l, hl, hgl⟩ := hg
  rw [mkInputs, List.mem_map] at hl
  obtain ⟨which, -, rfl⟩ := hl
  by_cases h0 : which = 0
  · rw [if_pos h0] at hgl
    exact levelFiles_subset v base (hsub hgl)
  · rw [if_neg h0] at hgl
    exact levelFiles_subset v (base + which)
      (List.mem_of_mem_filter hgl)

/-- After a successful construction every file of the new snapshot whose
number is an input number carries the mark. -/
theorem mk_flags_set {v : Version} {base output : Nat}
    {baseFiles : List FileMetaData} {mofs mgob : Nat}
    {style : CompactionStyle} {man del : Bool} {c : Compaction}
    {v' : Version}
    (hmk : mkCompaction v base output baseFiles mofs mgob style man del =
      some (c, v')) :
    ∀ f ∈ allFiles v', f.number ∈ inputNumbers c →
      f.being_compacted = true := by
  obtain ⟨⟨hbo, hsub, hclear⟩, hc, hv⟩ := mkCompaction_eq hmk
  have hids : inputNumbers c =
      (mkInputs v base output baseFiles).flatten.map (fun f => f.number) :=
    by rw [hc]; rfl
  intro f hf hmem
  rw [hv] at hf
  have hf' : f ∈ (allFiles v).map (markOne true
      ((mkInputs v base output baseFiles).flatten.map
        (fun f => f.number))) := by
    have h := allFiles_markFiles true
      ((mkInputs v base output baseFiles).flatten.map
        (fun f => f.number)) v
    unfold markFiles at h
    exact h ▸ hf
  obtain ⟨f₀, hf₀, rfl⟩ := List.mem_map.mp hf'
  rw [markOne_number] at hmem
  rw [hids] at hmem
  exact markOne_flag_mem true _ f₀ hmem

/-- Construction preserves old marks: a marked file of the old snapshot
appears in the new snapshot with the same number, still marked. -/
theorem mk_preserves_marks {v : Version} {base output : Nat}
    {baseFiles : List FileMetaData} {mofs mgob : Nat}
    {style : CompactionStyle} {man del : Bool} {c : Compaction}
    {v' : Version}
    (hmk : mkCompaction v base output baseFiles mofs mgob style man del =
      some (c, v')) :
    (∀ f ∈ allFiles v', ∃ g ∈ allFiles v, g.number = f.number ∧
      (g.being_compacted = true → f.being_compacted = true)) ∧
    (∀ g ∈ allFiles v, ∃ f ∈ allFiles v', f.number = g.number) := by
  obtain ⟨⟨hbo, hsub, hclear⟩, hc, hv⟩ := mkCompaction_eq hmk
  have hall : allFiles v' = (allFiles v).map (markOne true
      ((mkInputs v base output baseFiles).flatten.map
        (fun f => f.number))) := by
    rw [hv]
    have h := allFiles_markFiles true
      ((mkInputs v base output baseFiles).flatten.map
        (fun f => f.number)) v
    unfold markFiles at h
    exact h
  constructor
  · intro f hf
    rw [hall] at hf
    obtain ⟨g, hg, rfl⟩ := List.mem_map.mp hf
    refine ⟨g, hg, (markOne_number _ _ g).symm, ?_⟩
    intro hgt
    unfold markOne
    split
    · rfl
    · exact hgt
  · intro g hg
    refine ⟨markOne true ((mkInputs v base output baseFiles).flatten.map
      (fun f => f.number)) g, ?_, markOne_number _ _ g⟩
    rw [hall]
    exact List.mem_map_of_mem _ hg

/-- Release preserves the other descriptors' marks: a file whose number is
not among the released descriptor's inputs keeps its flag. -/
theorem release_preserves_others (c : Compaction) (st : Status)
    (w : Version) (e : VersionEdit) :
    ∀ f ∈ allFiles (ReleaseCompactionFiles c st w e).1,
      ∃ g ∈ allFiles w, g.number = f.number ∧
        (g.number ∉ inputNumbers c → f = g) := by
  intro f hf
  rw [release_allFiles] at hf
  obtain ⟨g, hg, rfl⟩ := List.mem_map.mp hf
  exact ⟨g, hg, (markOne_number _ _ g).symm,
    fun hn => markOne_not_mem _ _ g hn⟩

/-- Numbers survive a release: every old file has an image with the same
number. -/
theorem release_preserves_numbers (c : Compaction) (st : Status)
    (w : Version) (e : VersionEdit) :
    ∀ g ∈ allFiles w,
      ∃ f ∈ allFiles (ReleaseCompactionFiles c st w e).1,
        f.number = g.number := by
  intro g hg
  refine ⟨markOne false (inputNumbers c) g, ?_, markOne_number _ _ g⟩
  rw [release_allFiles]
  exact List.mem_map_of_mem _ hg

/-- The system invariant survives every step. -/
theorem sysInv_step {s t : SysState} (hinv : SysInv s) (hstep : Step s t) :
    SysInv t := by
  obtain ⟨hflags, hpres, hdisj⟩ := hinv
  cases hstep with
  | construct s base output baseFiles mofs mgob style man del c v' h =>
    obtain ⟨⟨hbo, hsub, hclear⟩, hc, hv⟩ := mkCompaction_eq h
    have hids : inputNumbers c =
        (mkInputs s.version base output baseFiles).flatten.map
          (fun f => f.number) := by rw [hc]; rfl
    have hnewdisj : ∀ c' ∈ s.live, ∀ i ∈ inputNumbers c,
        i ∉ inputNumbers c' := by
      intro c' hc' i hi hi'
      obtain ⟨f, hf, rfl⟩ := hpres c' hc' i hi'
      have htrue := hflags c' hc' f hf hi'
      have hfalse := hclear f hf (hids ▸ hi)
      rw [htrue] at hfalse
      cases hfalse
    refine ⟨?_, ?_, ?_⟩
    · intro c₂ hc₂ f hf hmem
      rcases List.mem_cons.mp hc₂ with rfl | hc₂
      · exact mk_flags_set h f hf hmem
      · obtain ⟨g, hg, hnum, himp⟩ := (mk_preserves_marks h).1 f hf
        by_cases hin : f.number ∈ inputNumbers c
        · exact mk_flags_set h f hf hin
        · exact himp (hflags c₂ hc₂ g hg (hnum ▸ hmem))
    · intro c₂ hc₂ i hi
      rcases List.mem_cons.mp hc₂ with rfl | hc₂
      · rw [hids] at hi
        obtain ⟨g, hg, rfl⟩ := List.mem_map.mp hi
        have hgv : g ∈ allFiles s.version :=
          mkInputs_subset s.version base output baseFiles hsub g hg
        obtain ⟨f, hf, hnum⟩ := (mk_preserves_marks h).2 g hgv
        exact ⟨f, hf, hnum⟩
      · obtain ⟨f, hf, rfl⟩ := hpres c₂ hc₂ i hi
        obtain ⟨f', hf', hnum⟩ := (mk_preserves_marks h).2 f hf
        exact ⟨f', hf', hnum⟩
    · exact List.pairwise_cons.mpr ⟨hnewdisj, hdisj⟩
  | release v l₁ l₂ c st e =>
    have hdisj' : ∀ c' ∈ l₁ ++ l₂, ∀ i ∈ inputNumbers c',
        i ∉ inputNumbers c := by
      intro c' hc' i hi hic
      rcases List.mem_append.mp hc' with h1 | h2
      · obtain ⟨-, -, hcross⟩ := List.pairwise_append.mp hdisj
        exact hcross c' h1 c (List.mem_cons_self c l₂) i hi hic
      · obtain ⟨-, hctail, -⟩ := List.pairwise_append.mp hdisj
        obtain ⟨hhead, -⟩ := List.pairwise_cons.mp hctail
        exact hhead c' h2 i hic hi
    refine ⟨?_, ?_, ?_⟩
    · intro c₂ hc₂ f hf hmem
      obtain ⟨g, hg, hnum, heq⟩ :=
        release_preserves_others c st v e f hf
      have hgn : g.number ∉ inputNumbers c := by
        rw [hnum]
        exact hdisj' c₂ hc₂ f.number hmem
      rw [heq hgn]
      have hc₂' : c₂ ∈ l₁ ++ c :: l₂ := by
        rcases List.mem_append.mp hc₂ with h1 | h2
        · exact List.mem_append.mpr (Or.inl h1)
        · exact List.mem_append.mpr
            (Or.inr (List.mem_cons_of_mem c h2))
      exact hflags c₂ hc₂' g hg (hnum ▸ hmem)
    · intro c₂ hc₂ i hi
      have hc₂' : c₂ ∈ l₁ ++ c :: l₂ := by
        rcases List.mem_append.mp hc₂ with h1 | h2
        · exact List.mem_append.mpr (Or.inl h1)
        · exact List.mem_append.mpr
            (Or.inr (List.mem_cons_of_mem c h2))
      obtain ⟨g, hg, rfl⟩ := hpres c₂ hc₂' i hi
      obtain ⟨f, hf, hnum⟩ := release_preserves_numbers c st v e g hg
      exact ⟨f, hf, hnum⟩
    · exact hdisj.sublist
        ((List.sublist_cons_self c l₂).append_left l₁)

/-- The system invariant holds in every state reachable from a state
satisfying it. -/
theorem sysInv_reachable {s t : SysState} (hinv : SysInv s)
    (h : Reachable s t) : SysInv t := by
  induction h with
  | refl => exact hinv
  | step hreach hstep ih => exact sysInv_step ih hstep

/-- C5: in every state of the system reachable by any interleaving of
descriptor constructions and releases from a state with no live
descriptor, no two simultaneously live descriptors name a common input
file: each marked file is held by at most one live descriptor. -/
theorem no_shared_input_files (v₀ : Version) (s : SysState)
    (h : Reachable ⟨v₀, []⟩ s) : LiveDisjoint s := by
  have hinit : SysInv ⟨v₀, []⟩ := by
    refine ⟨?_, ?_, List.Pairwise.nil⟩ <;> intro c hc <;> cases hc
  exact (sysInv_reachable hinit h).2.2

/-- C5 witness: two descriptors constructed in sequence over the same
tree (one holding `fA`, one holding `gD1`) are simultaneously live and
share no input file. -/
theorem no_shared_input_files_witness :
    LiveDisjoint ⟨vD2, [cD2, cD]⟩ := by
  have h1 : Step ⟨vD, []⟩ ⟨vD', [cD]⟩ :=
    Step.construct ⟨vD, []⟩ 0 1 [fA] 100 10 CompactionStyle.level
      false false cD vD' (by decide)
  have h2 : Step ⟨vD', [cD]⟩ ⟨vD2, [cD2, cD]⟩ :=
    Step.construct ⟨vD', [cD]⟩ 2 2 [gD1] 100 10 CompactionStyle.level
      false false cD2 vD2 (by decide)
  exact no_shared_input_files vD ⟨vD2, [cD2, cD]⟩
    (Reachable.step (Reachable.step (Reachable.refl _) h1) h2)

end RocksDB
